import Mathlib

/-!
Verification of the storage-rent calculator (src/StorageRent/StorageRent.ts).

The TypeScript source works on JavaScript `Date` objects constructed as local
midnight dates via `new Date(year, month, day)` (month 0-based, day 1-based,
with out-of-range days rolling over into adjacent months) and compares them by
their timestamps.  We embed such dates as triples of integers together with the
JS normalization rule, money as exact rationals, and each source function as a
Lean function of the same name.
-/

namespace StorageRent

/-- Gregorian leap-year rule used by the JavaScript `Date` object itself.
(The repository also contains an `isLeapYear` helper that omits the mod-400
case, but that helper is dead code: nothing in the source calls it; every
calendar computation in the program goes through `new Date`, which uses the
full rule.) -/
def jsLeapYear (y : Int) : Bool :=
  y % 4 == 0 && (y % 100 != 0 || y % 400 == 0)

/-- Number of days of month `m` (0-based: 0 = January .. 11 = December) of
year `y`, as computed by `new Date(y, m + 1, 0).getDate()` in the source. -/
def daysInMonth (y m : Int) : Int :=
  if m = 1 then (if jsLeapYear y then 29 else 28)
  else if m = 3 ∨ m = 5 ∨ m = 8 ∨ m = 10 then 30
  else 31

/-- A JavaScript `Date` at local midnight: year, 0-based month, 1-based day.
Dates produced by the program are always normalized (month in 0..11, day in
1..daysInMonth); see `JDate.Valid`. -/
structure JDate where
  year : Int
  month : Int
  day : Int
deriving DecidableEq

/-- Injective-on-valid-dates key that orders normalized dates exactly as the
JS timestamps (`Date.prototype.getTime`) order them: months have at most 31
days, so 32 slots per month suffice. All date comparisons in the source are
timestamp comparisons; we model them as comparisons of this key. -/
def JDate.key (d : JDate) : Int :=
  (d.year * 12 + d.month) * 32 + d.day

/-- A normalized (real) calendar date, i.e. what an actual JS `Date` holds. -/
def JDate.Valid (d : JDate) : Prop :=
  0 ≤ d.month ∧ d.month ≤ 11 ∧ 1 ≤ d.day ∧ d.day ≤ daysInMonth d.year d.month

instance (d : JDate) : Decidable d.Valid := by
  unfold JDate.Valid; exact inferInstance

theorem key_mk (y m d : Int) : (JDate.mk y m d).key = (y * 12 + m) * 32 + d :=
  rfl

theorem valid_mk (y m d : Int) (h1 : 0 ≤ m) (h2 : m ≤ 11) (h3 : 1 ≤ d)
    (h4 : d ≤ daysInMonth y m) : (JDate.mk y m d).Valid :=
  ⟨h1, h2, h3, h4⟩

/-- Day-of-month normalization performed by the JS `Date` constructor: a day
outside `1..daysInMonth` rolls into the adjacent month.  The fuel bounds the
number of carries; every `new Date(y, m, d)` in the source has `0 ≤ d ≤ 31`,
which needs at most two steps, so a fuel of 40 is far more than enough. -/
def daysFix : Nat → Int → Int → Int → JDate
  | 0, y, m, d => ⟨y, m, d⟩
  | fuel + 1, y, m, d =>
    if d < 1 then
      daysFix fuel (if m = 0 then y - 1 else y) (if m = 0 then 11 else m - 1)
        (d + daysInMonth (if m = 0 then y - 1 else y) (if m = 0 then 11 else m - 1))
    else if daysInMonth y m < d then
      daysFix fuel (if m = 11 then y + 1 else y) (if m = 11 then 0 else m + 1)
        (d - daysInMonth y m)
    else ⟨y, m, d⟩

/-- The JS `new Date(y, m, d)` constructor (at local midnight): the month is
first reduced mod 12 with carry into the year, then the day is normalized. -/
def mkDate (y m d : Int) : JDate :=
  daysFix 40 (y + m / 12) (m % 12) d

/-- Model of `MonthlyRentRecord` from the source. -/
structure MonthlyRentRecord where
  vacancy : Bool
  rentAmount : ℚ
  rentDueDate : JDate
deriving DecidableEq

/-- `Math.round x`: round half toward positive infinity, i.e. `⌊x + 1/2⌋`
(also for negative arguments).  For `x = num/den` with `den > 0` this floor
is the integer floor division `(2 num + den) / (2 den)`; `jsRound_eq_round`
below certifies that this agrees with Mathlib's `round`. -/
def jsRound (x : ℚ) : ℤ :=
  (2 * x.num + (x.den : ℤ)) / (2 * (x.den : ℤ))

/-- Source: `roundToTwo`, i.e. `Math.round(n * 100) / 100`. -/
def roundToTwo (n : ℚ) : ℚ :=
  (jsRound (n * 100) : ℚ) / 100

/-- Source: `calculateNewMonthlyRent`. -/
def calculateNewMonthlyRent (baseRent rentChangeRate : ℚ) : ℚ :=
  baseRent * (1 + rentChangeRate)

/-- Source: `clampToLastDayOfMonth`.  `lastDay` is
`new Date(year, month + 1, 0).getDate()`. -/
def clampToLastDayOfMonth (d : JDate) : JDate :=
  let lastDay := (mkDate d.year (d.month + 1) 0).day
  if lastDay < d.day then mkDate d.year d.month lastDay
  else d

/-- Source: `nextMonthSameDueDay`: move to the next month (with the explicit
`if (month > 11)` year carry of the source), clamp the requested day to that
month's last day with `Math.min`, and build the date. -/
def nextMonthSameDueDay (currentDate : JDate) (dayOfMonth : Int) : JDate :=
  let year := if 11 < currentDate.month + 1 then currentDate.year + 1 else currentDate.year
  let month := if 11 < currentDate.month + 1 then 0 else currentDate.month + 1
  let lastDay := (mkDate year (month + 1) 0).day
  let clampedDay := min dayOfMonth lastDay
  mkDate year month clampedDay

/-- Loop body of `generateRentChangeDates`: starting from candidate
`(year, month, 1)`, collect candidates while they are `<= windowEndDate`,
advancing by `frequencyMonths` months each step.  The source advances with
`month += frequencyMonths; while (month > 11) { month -= 12; year++ }`,
which (for the nonnegative months that occur on every call path) is division
with carry, i.e. `ediv`/`emod` by 12.  The source loop is an unbounded
`while`; the fuel passed by `generateRentChangeDates` is proven large enough
that the loop always reaches its natural exit (`genLoop` never returns `[]`
through fuel exhaustion on those calls). -/
def genLoop (windowEndDate : JDate) (frequencyMonths : Int) :
    Nat → Int → Int → List JDate
  | 0, _, _ => []
  | fuel + 1, year, month =>
    if (JDate.mk year month 1).key ≤ windowEndDate.key then
      JDate.mk year month 1 ::
        genLoop windowEndDate frequencyMonths fuel
          (year + (month + frequencyMonths) / 12)
          ((month + frequencyMonths) % 12)
    else []

/-- Source: `generateRentChangeDates`.  The first candidate is the 1st of the
month `frequencyMonths` months after `windowStartDate`'s month/year. -/
def generateRentChangeDates (windowStartDate windowEndDate : JDate)
    (frequencyMonths : Int) : List JDate :=
  if frequencyMonths ≤ 0 then []
  else
    let m := windowStartDate.month + frequencyMonths
    let year := windowStartDate.year + m / 12
    let month := m % 12
    let fuel := (windowEndDate.key - (JDate.mk year month 1).key).toNat + 1
    genLoop windowEndDate frequencyMonths fuel year month

/-- Condition `cdt > prevTime` from `applyAllApplicableRentChanges`, where
`prevTime` is `-Infinity` when `previousDueDate` is `null` (modelled as
`none`): every date is strictly after `-Infinity`. -/
def afterPrev : Option JDate → JDate → Bool
  | none, _ => true
  | some p, cd => decide (p.key < cd.key)

/-- Loop body of `applyAllApplicableRentChanges` for one change date `cd`. -/
def rentStep (rentChangeRate : ℚ) (previousDueDate : Option JDate)
    (upcomingDueDate leaseStartDate : JDate) (currentRent : ℚ) (cd : JDate) : ℚ :=
  if afterPrev previousDueDate cd ∧ cd.key ≤ upcomingDueDate.key then
    if leaseStartDate.key ≤ cd.key ∧ 0 < rentChangeRate then
      calculateNewMonthlyRent currentRent rentChangeRate
    else if ¬ leaseStartDate.key ≤ cd.key ∧ rentChangeRate < 0 then
      calculateNewMonthlyRent currentRent rentChangeRate
    else currentRent
  else currentRent

/-- Source: `applyAllApplicableRentChanges`, a left fold of `rentStep` over
the change dates in their list order. -/
def applyAllApplicableRentChanges (currentRent rentChangeRate : ℚ)
    (rentChangeDates : List JDate) (previousDueDate : Option JDate)
    (upcomingDueDate leaseStartDate : JDate) : ℚ :=
  rentChangeDates.foldl
    (rentStep rentChangeRate previousDueDate upcomingDueDate leaseStartDate)
    currentRent

/-- First-payment amount and second-payment date of `calculateMonthlyRent`
(step 4 in the source), given the rent already updated by the pre-first-payment
pass.  `startDay` is `leaseStartDate.getDate()`. -/
def firstPaymentInfo (occupantMonthlyRentAtFirstPayment : ℚ)
    (leaseStartDate : JDate) (dueDay : Int) : ℚ × JDate :=
  let startDay := leaseStartDate.day
  if startDay < dueDay then
    (occupantMonthlyRentAtFirstPayment * (((dueDay - startDay : Int) : ℚ) / 30),
     clampToLastDayOfMonth (mkDate leaseStartDate.year leaseStartDate.month dueDay))
  else if startDay = dueDay then
    (occupantMonthlyRentAtFirstPayment, nextMonthSameDueDay leaseStartDate dueDay)
  else
    (occupantMonthlyRentAtFirstPayment * (1 - ((startDay - dueDay : Int) : ℚ) / 30),
     nextMonthSameDueDay leaseStartDate dueDay)

/-- Step-5 loop of `calculateMonthlyRent`.  The fuel is the source's
`iterationSafety` bound: the source runs the body while
`iterationSafety < 500`, so the body executes at most 500 times. -/
def calcLoop (windowStartDate windowEndDate leaseStartDate : JDate)
    (dueDay : Int) (rentChangeRate : ℚ) (rentChangeDates : List JDate) :
    Nat → JDate → JDate → ℚ → List MonthlyRentRecord
  | 0, _, _, _ => []
  | fuel + 1, previousDueDate, currentDueDate, currentMonthlyRent =>
    if windowEndDate.key < currentDueDate.key then []
    else
      let newRent := applyAllApplicableRentChanges currentMonthlyRent
        rentChangeRate rentChangeDates (some previousDueDate) currentDueDate
        leaseStartDate
      let rest := calcLoop windowStartDate windowEndDate leaseStartDate dueDay
        rentChangeRate rentChangeDates fuel currentDueDate
        (nextMonthSameDueDay currentDueDate dueDay) newRent
      if windowStartDate.key ≤ currentDueDate.key ∧
          currentDueDate.key ≤ windowEndDate.key then
        ⟨false, roundToTwo newRent, currentDueDate⟩ :: rest
      else rest

/-- Source: `calculateMonthlyRent`.  Date comparisons (`>`, `>=`, `<=`) of the
source compare timestamps, modelled by `JDate.key`. -/
def calculateMonthlyRent (baseMonthlyRent : ℚ)
    (leaseStartDate windowStartDate windowEndDate : JDate)
    (dayOfMonthRentDue rentRateChangeFrequency : Int)
    (rentChangeRate : ℚ) : List MonthlyRentRecord :=
  if windowEndDate.key < windowStartDate.key then []
  else
    let rentChangeDates := generateRentChangeDates windowStartDate windowEndDate
      rentRateChangeFrequency
    if windowEndDate.key < leaseStartDate.key then []
    else
      let firstPaymentDate := leaseStartDate
      let currentMonthlyRent := applyAllApplicableRentChanges baseMonthlyRent
        rentChangeRate rentChangeDates none firstPaymentDate leaseStartDate
      let fp := firstPaymentInfo currentMonthlyRent leaseStartDate dayOfMonthRentDue
      let firstPart : List MonthlyRentRecord :=
        if windowStartDate.key ≤ firstPaymentDate.key ∧
            firstPaymentDate.key ≤ windowEndDate.key then
          [⟨false, roundToTwo fp.1, firstPaymentDate⟩]
        else []
      firstPart ++ calcLoop windowStartDate windowEndDate leaseStartDate
        dayOfMonthRentDue rentChangeRate rentChangeDates 500 firstPaymentDate
        fp.2 currentMonthlyRent

/-! ### Calendar lemmas -/

theorem jsRound_eq_round (x : ℚ) : jsRound x = round x := by
  rw [round_eq]
  have hden : ((x.den : ℚ)) ≠ 0 := by
    exact_mod_cast x.den_nz
  have hx : x + 1 / 2 =
      ((2 * x.num + (x.den : ℤ) : ℤ) : ℚ) / ((2 * x.den : ℕ) : ℚ) := by
    conv_lhs => rw [← Rat.num_div_den x]
    push_cast
    field_simp
    ring
  rw [hx, Rat.floor_intCast_div_natCast]
  unfold jsRound
  push_cast
  rfl

theorem daysInMonth_bounds (y m : Int) :
    28 ≤ daysInMonth y m ∧ daysInMonth y m ≤ 31 := by
  unfold daysInMonth
  split_ifs <;> norm_num

theorem mkDate_small (y m d : Int) (hm0 : 0 ≤ m) (hm : m ≤ 11) :
    mkDate y m d = daysFix 40 y m d := by
  unfold mkDate
  have e1 : m / 12 = 0 := by omega
  have e2 : m % 12 = m := by omega
  rw [e1, e2, add_zero]

theorem daysFix_id (fuel : Nat) (y m d : Int) (h1 : 1 ≤ d)
    (h2 : d ≤ daysInMonth y m) : daysFix (fuel + 1) y m d = ⟨y, m, d⟩ := by
  unfold daysFix
  rw [if_neg (by omega), if_neg (by omega)]

/-- `new Date(y, m, d)` with a real day of month `m` is just that date. -/
theorem mkDate_valid_day (y m d : Int) (hm0 : 0 ≤ m) (hm : m ≤ 11)
    (h1 : 1 ≤ d) (h2 : d ≤ daysInMonth y m) : mkDate y m d = ⟨y, m, d⟩ := by
  rw [mkDate_small y m d hm0 hm]
  exact daysFix_id 39 y m d h1 h2

/-- `new Date(y, m, d)` with `daysInMonth < d ≤ 31` rolls into the next
month: this is the JS behavior that defeats `clampToLastDayOfMonth`. -/
theorem mkDate_overflow (y m d : Int) (hm0 : 0 ≤ m) (hm : m ≤ 11)
    (h1 : daysInMonth y m < d) (h2 : d ≤ 31) :
    mkDate y m d = ⟨if m = 11 then y + 1 else y, if m = 11 then 0 else m + 1,
      d - daysInMonth y m⟩ := by
  have hb := daysInMonth_bounds y m
  have hb2 := daysInMonth_bounds (if m = 11 then y + 1 else y)
    (if m = 11 then 0 else m + 1)
  rw [mkDate_small y m d hm0 hm]
  show daysFix (39 + 1) y m d = _
  unfold daysFix
  rw [if_neg (by omega), if_pos h1]
  apply daysFix_id <;> omega

theorem daysFix_back (fuel : Nat) (y m d : Int) (hd : d < 1) :
    daysFix (fuel + 1) y m d =
      daysFix fuel (if m = 0 then y - 1 else y) (if m = 0 then 11 else m - 1)
        (d + daysInMonth (if m = 0 then y - 1 else y)
          (if m = 0 then 11 else m - 1)) := by
  conv_lhs => unfold daysFix
  rw [if_pos hd]

/-- `new Date(y, m + 1, 0)` is the last day of month `m`. -/
theorem mkDate_day_zero (y m : Int) (hm0 : 0 ≤ m) (hm : m ≤ 11) :
    mkDate y (m + 1) 0 = ⟨y, m, daysInMonth y m⟩ := by
  have hb := daysInMonth_bounds y m
  by_cases h11 : m = 11
  · subst h11
    have h1 : ((11 : Int) + 1) / 12 = 1 := by decide
    have h2 : ((11 : Int) + 1) % 12 = 0 := by decide
    unfold mkDate
    rw [h1, h2]
    show daysFix (39 + 1) (y + 1) 0 0 = _
    rw [daysFix_back 39 (y + 1) 0 0 (by norm_num)]
    norm_num
    apply daysFix_id <;> omega
  · rw [mkDate_small y (m + 1) 0 (by omega) (by omega)]
    show daysFix (39 + 1) y (m + 1) 0 = _
    rw [daysFix_back 39 y (m + 1) 0 (by norm_num)]
    split_ifs with h
    · exact absurd h (by omega)
    · rw [show m + 1 - 1 = m from by omega, zero_add]
      apply daysFix_id <;> omega

theorem mkDate_day_zero_day (y m : Int) (hm0 : 0 ≤ m) (hm : m ≤ 11) :
    (mkDate y (m + 1) 0).day = daysInMonth y m := by
  rw [mkDate_day_zero y m hm0 hm]

/-- A date the program has normalized is left alone by the clamp helper:
its day never exceeds its own month's length.  (This is why the
`startDay < dueDay` branch never actually clamps: by the time
`clampToLastDayOfMonth` runs, the JS constructor has already rolled an
overflowing day into the next month.) -/
theorem clampToLastDayOfMonth_of_valid (d : JDate) (hv : d.Valid) :
    clampToLastDayOfMonth d = d := by
  obtain ⟨h1, h2, h3, h4⟩ := hv
  unfold clampToLastDayOfMonth
  rw [mkDate_day_zero d.year d.month h1 h2]
  exact if_neg (by simp only; omega)

/-- Explicit description of the second-payment date in the
`startDay == dueDay` and `startDay > dueDay` branches, following the spec:
the due day in the next calendar month, clamped to that month's length. -/
def nextDueExplicit (d : JDate) (dueDay : Int) : JDate :=
  if d.month = 11 then ⟨d.year + 1, 0, min dueDay (daysInMonth (d.year + 1) 0)⟩
  else ⟨d.year, d.month + 1, min dueDay (daysInMonth d.year (d.month + 1))⟩

theorem nextMonthSameDueDay_eq (cur : JDate) (dueDay : Int) (hv : cur.Valid)
    (hd : 1 ≤ dueDay) :
    nextMonthSameDueDay cur dueDay = nextDueExplicit cur dueDay := by
  obtain ⟨h1, h2, h3, h4⟩ := hv
  by_cases h11 : cur.month = 11
  · have hc : 11 < cur.month + 1 := by omega
    have hb := daysInMonth_bounds (cur.year + 1) 0
    simp only [nextMonthSameDueDay, if_pos hc]
    rw [mkDate_day_zero_day (cur.year + 1) 0 le_rfl (by norm_num)]
    rw [mkDate_valid_day (cur.year + 1) 0
      (min dueDay (daysInMonth (cur.year + 1) 0)) le_rfl (by norm_num)
      (by omega) (by omega)]
    unfold nextDueExplicit
    rw [if_pos h11]
  · have hc : ¬ 11 < cur.month + 1 := by omega
    have hb := daysInMonth_bounds cur.year (cur.month + 1)
    simp only [nextMonthSameDueDay, if_neg hc]
    rw [mkDate_day_zero_day cur.year (cur.month + 1) (by omega) (by omega)]
    rw [mkDate_valid_day cur.year (cur.month + 1)
      (min dueDay (daysInMonth cur.year (cur.month + 1))) (by omega) (by omega)
      (by omega) (by omega)]
    unfold nextDueExplicit
    rw [if_neg h11]

theorem nextDueExplicit_valid (cur : JDate) (dueDay : Int) (hv : cur.Valid)
    (hd : 1 ≤ dueDay) : (nextDueExplicit cur dueDay).Valid := by
  obtain ⟨h1, h2, h3, h4⟩ := hv
  unfold nextDueExplicit JDate.Valid
  by_cases h11 : cur.month = 11
  · rw [if_pos h11]
    have hb := daysInMonth_bounds (cur.year + 1) 0
    simp only
    omega
  · rw [if_neg h11]
    have hb := daysInMonth_bounds cur.year (cur.month + 1)
    simp only
    omega

theorem nextDueExplicit_key_lt (cur : JDate) (dueDay : Int) (hv : cur.Valid)
    (hd : 1 ≤ dueDay) : cur.key < (nextDueExplicit cur dueDay).key := by
  obtain ⟨h1, h2, h3, h4⟩ := hv
  have hb := daysInMonth_bounds cur.year cur.month
  unfold nextDueExplicit JDate.key
  by_cases h11 : cur.month = 11
  · rw [if_pos h11]
    have hb2 := daysInMonth_bounds (cur.year + 1) 0
    simp only
    omega
  · rw [if_neg h11]
    have hb2 := daysInMonth_bounds cur.year (cur.month + 1)
    simp only
    omega

theorem nextMonthSameDueDay_valid (cur : JDate) (dueDay : Int) (hv : cur.Valid)
    (hd : 1 ≤ dueDay) : (nextMonthSameDueDay cur dueDay).Valid := by
  rw [nextMonthSameDueDay_eq cur dueDay hv hd]
  exact nextDueExplicit_valid cur dueDay hv hd

theorem nextMonthSameDueDay_key_lt (cur : JDate) (dueDay : Int)
    (hv : cur.Valid) (hd : 1 ≤ dueDay) :
    cur.key < (nextMonthSameDueDay cur dueDay).key := by
  rw [nextMonthSameDueDay_eq cur dueDay hv hd]
  exact nextDueExplicit_key_lt cur dueDay hv hd

/-! ### Second-payment-date facts -/

theorem secondDate_branch1 (lease : JDate) (dueDay : Int) (hv : lease.Valid)
    (hlt : lease.day < dueDay) (h31 : dueDay ≤ 31) :
    (clampToLastDayOfMonth (mkDate lease.year lease.month dueDay)).Valid ∧
    lease.key <
      (clampToLastDayOfMonth (mkDate lease.year lease.month dueDay)).key := by
  obtain ⟨h1, h2, h3, h4⟩ := hv
  by_cases hd : dueDay ≤ daysInMonth lease.year lease.month
  · rw [mkDate_valid_day _ _ _ h1 h2 (by omega) hd]
    have hvd : (JDate.mk lease.year lease.month dueDay).Valid :=
      valid_mk _ _ _ h1 h2 (by omega) hd
    rw [clampToLastDayOfMonth_of_valid _ hvd]
    refine ⟨hvd, ?_⟩
    simp only [JDate.key]
    omega
  · rw [mkDate_overflow _ _ _ h1 h2 (by omega) h31]
    have hb := daysInMonth_bounds lease.year lease.month
    by_cases h11 : lease.month = 11
    · rw [if_pos h11, if_pos h11]
      have hb2 := daysInMonth_bounds (lease.year + 1) 0
      have hvd : (JDate.mk (lease.year + 1) 0
          (dueDay - daysInMonth lease.year lease.month)).Valid :=
        valid_mk _ _ _ le_rfl (by norm_num) (by omega) (by omega)
      rw [clampToLastDayOfMonth_of_valid _ hvd]
      refine ⟨hvd, ?_⟩
      simp only [JDate.key]
      omega
    · rw [if_neg h11, if_neg h11]
      have hb2 := daysInMonth_bounds lease.year (lease.month + 1)
      have hvd : (JDate.mk lease.year (lease.month + 1)
          (dueDay - daysInMonth lease.year lease.month)).Valid :=
        valid_mk _ _ _ (by omega) (by omega) (by omega) (by omega)
      rw [clampToLastDayOfMonth_of_valid _ hvd]
      refine ⟨hvd, ?_⟩
      simp only [JDate.key]
      omega

theorem firstPaymentInfo_snd_facts (r : ℚ) (lease : JDate) (dueDay : Int)
    (hv : lease.Valid) (h1 : 1 ≤ dueDay) (h31 : dueDay ≤ 31) :
    ((firstPaymentInfo r lease dueDay).2).Valid ∧
    lease.key < (firstPaymentInfo r lease dueDay).2.key := by
  simp only [firstPaymentInfo]
  by_cases hb1 : lease.day < dueDay
  · rw [if_pos hb1]
    exact secondDate_branch1 lease dueDay hv hb1 h31
  · by_cases hb2 : lease.day = dueDay
    · rw [if_neg hb1, if_pos hb2]
      exact ⟨nextMonthSameDueDay_valid lease dueDay hv h1,
        nextMonthSameDueDay_key_lt lease dueDay hv h1⟩
    · rw [if_neg hb1, if_neg hb2]
      exact ⟨nextMonthSameDueDay_valid lease dueDay hv h1,
        nextMonthSameDueDay_key_lt lease dueDay hv h1⟩

/-- Proration fraction of the first payment, as the spec states it (with the
fixed denominator 30). -/
def firstFraction (startDay dueDay : Int) : ℚ :=
  if startDay < dueDay then ((dueDay - startDay : Int) : ℚ) / 30
  else if startDay = dueDay then 1
  else 1 - ((startDay - dueDay : Int) : ℚ) / 30

theorem firstPaymentInfo_fst (r : ℚ) (lease : JDate) (dueDay : Int) :
    (firstPaymentInfo r lease dueDay).1 = r * firstFraction lease.day dueDay := by
  simp only [firstPaymentInfo, firstFraction]
  split_ifs <;> ring

/-! ### Rent-change algebra -/

/-- A schedule date moves the rent exactly when the unit is occupied with a
positive rate or vacant with a negative rate. -/
def changeApplies (rentChangeRate : ℚ) (leaseStartDate cd : JDate) : Bool :=
  (decide (leaseStartDate.key ≤ cd.key) && decide (0 < rentChangeRate)) ||
  (decide (cd.key < leaseStartDate.key) && decide (rentChangeRate < 0))

/-- A schedule date qualifies inside `applyAllApplicableRentChanges`:
it lies in the interval `(previousDueDate, upcomingDueDate]` and moves the
rent. -/
def qualB (rentChangeRate : ℚ) (previousDueDate : Option JDate)
    (upcomingDueDate leaseStartDate : JDate) (cd : JDate) : Bool :=
  afterPrev previousDueDate cd && decide (cd.key ≤ upcomingDueDate.key) &&
    changeApplies rentChangeRate leaseStartDate cd

/-- A schedule date dated on or before `upTo` that moves the rent. -/
def qualUpTo (rentChangeRate : ℚ) (upTo leaseStartDate cd : JDate) : Bool :=
  decide (cd.key ≤ upTo.key) && changeApplies rentChangeRate leaseStartDate cd

theorem rentStep_eq (rate : ℚ) (prev : Option JDate) (up lease : JDate)
    (rent : ℚ) (cd : JDate) :
    rentStep rate prev up lease rent cd =
      if qualB rate prev up lease cd then rent * (1 + rate) else rent := by
  by_cases hA : afterPrev prev cd = true <;>
    by_cases h2 : cd.key ≤ up.key <;>
    by_cases h3 : lease.key ≤ cd.key <;>
    by_cases h4 : (0 : ℚ) < rate <;>
    by_cases h5 : rate < 0 <;>
    simp [rentStep, qualB, changeApplies, calculateNewMonthlyRent,
      hA, h2, h3, h4, h5]
  · rw [if_neg (by omega)]
  · rw [if_pos (by omega)]
  · rw [if_pos (by omega)]

theorem applyAll_eq_pow (rate : ℚ) (prev : Option JDate) (up lease : JDate) :
    ∀ (dates : List JDate) (r : ℚ),
      applyAllApplicableRentChanges r rate dates prev up lease =
        r * (1 + rate) ^ dates.countP (qualB rate prev up lease) := by
  intro dates
  induction dates with
  | nil => intro r; simp [applyAllApplicableRentChanges]
  | cons cd t ih =>
    intro r
    calc applyAllApplicableRentChanges r rate (cd :: t) prev up lease
        = applyAllApplicableRentChanges (rentStep rate prev up lease r cd)
            rate t prev up lease := rfl
      _ = (rentStep rate prev up lease r cd) *
            (1 + rate) ^ t.countP (qualB rate prev up lease) := ih _
      _ = r * (1 + rate) ^ (cd :: t).countP (qualB rate prev up lease) := by
          rw [rentStep_eq, List.countP_cons]
          by_cases hq : qualB rate prev up lease cd = true
          · rw [if_pos hq, if_pos hq, pow_succ]
            ring
          · rw [if_neg hq, if_neg hq, add_zero]

theorem countP_or_disjoint (l : List JDate) (p q : JDate → Bool)
    (hdisj : ∀ a, ¬(p a = true ∧ q a = true)) :
    l.countP (fun a => p a || q a) = l.countP p + l.countP q := by
  induction l with
  | nil => simp
  | cons a t ih =>
    simp only [List.countP_cons, ih]
    cases hp : p a with
    | true =>
      cases hq : q a with
      | true => exact absurd ⟨hp, hq⟩ (hdisj a)
      | false => simp [hp, hq]; omega
    | false => cases hq : q a <;> simp [hp, hq] <;> omega

theorem qualB_none (rate : ℚ) (up lease : JDate) :
    qualB rate none up lease = qualUpTo rate up lease := by
  funext cd
  simp [qualB, qualUpTo, afterPrev]

theorem qual_split (rate : ℚ) (prev cur lease : JDate)
    (h : prev.key ≤ cur.key) (cd : JDate) :
    qualUpTo rate cur lease cd =
      (qualUpTo rate prev lease cd || qualB rate (some prev) cur lease cd) := by
  simp only [qualUpTo, qualB, afterPrev]
  by_cases hA : changeApplies rate lease cd = true <;>
    by_cases h1 : cd.key ≤ prev.key <;>
    by_cases h2 : cd.key ≤ cur.key <;>
    by_cases h3 : prev.key < cd.key <;>
    simp [hA, h1, h2, h3] <;>
    omega

theorem countP_interval (dates : List JDate) (rate : ℚ)
    (prev cur lease : JDate) (h : prev.key ≤ cur.key) :
    dates.countP (qualUpTo rate prev lease) +
      dates.countP (qualB rate (some prev) cur lease) =
    dates.countP (qualUpTo rate cur lease) := by
  rw [show qualUpTo rate cur lease = fun cd =>
      (qualUpTo rate prev lease cd || qualB rate (some prev) cur lease cd)
    from funext (qual_split rate prev cur lease h)]
  rw [countP_or_disjoint]
  intro a ha
  obtain ⟨ha1, ha2⟩ := ha
  simp only [qualUpTo, qualB, afterPrev, Bool.and_eq_true,
    decide_eq_true_eq] at ha1 ha2
  omega

/-! ### Characterization of the rent-change schedule -/

/-- The 1st of the month whose absolute month index is `M`
(`M = 12 * year + month`). -/
def monthIndexDate (M : Int) : JDate :=
  ⟨M / 12, M % 12, 1⟩

theorem monthIndexDate_key (M : Int) : (monthIndexDate M).key = M * 32 + 1 := by
  simp only [monthIndexDate, JDate.key]
  omega

theorem monthIndexDate_norm (y m : Int) (h0 : 0 ≤ m) (h : m < 12) :
    monthIndexDate (y * 12 + m) = JDate.mk y m 1 := by
  simp only [monthIndexDate]
  rw [JDate.mk.injEq]
  refine ⟨by omega, by omega, rfl⟩

theorem genLoop_mem (we : JDate) (f : Int) (hf : 1 ≤ f) :
    ∀ (fuel : Nat) (y m : Int), 0 ≤ m → m < 12 →
      we.key - (JDate.mk y m 1).key < 32 * fuel →
      ∀ d : JDate,
        (d ∈ genLoop we f fuel y m ↔
          ∃ k : Nat, d = monthIndexDate (y * 12 + m + f * k) ∧
            d.key ≤ we.key) := by
  intro fuel
  induction fuel with
  | zero =>
    intro y m hm0 hm hinv d
    simp only [genLoop, List.not_mem_nil, false_iff, not_exists]
    rintro k ⟨rfl, hk⟩
    rw [monthIndexDate_key] at hk
    have hk0 : 0 ≤ f * (k : Int) := mul_nonneg (by omega) (by positivity)
    simp only [JDate.key] at hinv hk
    omega
  | succ fuel ih =>
    intro y m hm0 hm hinv d
    have hnm0 : 0 ≤ (m + f) % 12 := by omega
    have hnm : (m + f) % 12 < 12 := by omega
    have hidx : (y + (m + f) / 12) * 12 + (m + f) % 12 = y * 12 + m + f := by
      omega
    have hinv2 : we.key -
        (JDate.mk (y + (m + f) / 12) ((m + f) % 12) 1).key < 32 * fuel := by
      simp only [JDate.key] at hinv ⊢
      omega
    simp only [genLoop]
    by_cases h : (JDate.mk y m 1).key ≤ we.key
    · rw [if_pos h, List.mem_cons]
      constructor
      · rintro (rfl | hd)
        · refine ⟨0, ?_, h⟩
          rw [Nat.cast_zero, mul_zero, add_zero,
            monthIndexDate_norm y m hm0 (by omega)]
        · obtain ⟨k, hdk, hk⟩ := (ih _ _ hnm0 hnm hinv2 d).mp hd
          refine ⟨k + 1, ?_, hk⟩
          rw [hdk]
          congr 1
          push_cast
          rw [mul_add, mul_one]
          omega
      · rintro ⟨k, hdk, hk⟩
        cases k with
        | zero =>
          left
          rw [hdk, Nat.cast_zero, mul_zero, add_zero,
            monthIndexDate_norm y m hm0 (by omega)]
        | succ k =>
          right
          apply (ih _ _ hnm0 hnm hinv2 d).mpr
          refine ⟨k, ?_, hk⟩
          rw [hdk]
          congr 1
          push_cast
          rw [mul_add, mul_one]
          omega
    · rw [if_neg h]
      simp only [List.not_mem_nil, false_iff, not_exists]
      rintro k ⟨rfl, hk⟩
      rw [monthIndexDate_key] at hk
      have hk0 : 0 ≤ f * (k : Int) := mul_nonneg (by omega) (by positivity)
      simp only [JDate.key, not_le] at h hk
      omega

theorem genLoop_sorted (we : JDate) (f : Int) (hf : 1 ≤ f) :
    ∀ (fuel : Nat) (y m : Int), 0 ≤ m → m < 12 →
      we.key - (JDate.mk y m 1).key < 32 * fuel →
      (genLoop we f fuel y m).Pairwise (fun a b => a.key < b.key) := by
  intro fuel
  induction fuel with
  | zero =>
    intro y m _ _ _
    simp [genLoop]
  | succ fuel ih =>
    intro y m hm0 hm hinv
    have hnm0 : 0 ≤ (m + f) % 12 := by omega
    have hnm : (m + f) % 12 < 12 := by omega
    have hinv2 : we.key -
        (JDate.mk (y + (m + f) / 12) ((m + f) % 12) 1).key < 32 * fuel := by
      simp only [JDate.key] at hinv ⊢
      omega
    simp only [genLoop]
    by_cases h : (JDate.mk y m 1).key ≤ we.key
    · rw [if_pos h, List.pairwise_cons]
      refine ⟨?_, ih _ _ hnm0 hnm hinv2⟩
      intro b hb
      obtain ⟨k, rfl, hk⟩ :=
        (genLoop_mem we f hf fuel _ _ hnm0 hnm hinv2 b).mp hb
      rw [monthIndexDate_key]
      have hk0 : 0 ≤ f * (k : Int) := mul_nonneg (by omega) (by positivity)
      simp only [JDate.key]
      omega
    · rw [if_neg h]
      simp

/-- Schedule candidate `k` (counting from 0) of `generateRentChangeDates`:
the 1st of the month `frequencyMonths * (k + 1)` months after the
window-start month. -/
def rcCandidate (windowStartDate : JDate) (frequencyMonths : Int) (k : Nat) :
    JDate :=
  monthIndexDate (windowStartDate.year * 12 + windowStartDate.month +
    frequencyMonths * (k + 1))

/-! ### Loop invariants of the recurring due-date iterator -/

theorem calcLoop_mem_facts (ws we lease : JDate) (dueDay : Int) (rate : ℚ)
    (dates : List JDate) (hd : 1 ≤ dueDay) :
    ∀ (fuel : Nat) (prev cur : JDate) (rent : ℚ), cur.Valid →
      ∀ rec ∈ calcLoop ws we lease dueDay rate dates fuel prev cur rent,
        cur.key ≤ rec.rentDueDate.key ∧ rec.rentDueDate.Valid := by
  intro fuel
  induction fuel with
  | zero =>
    intro prev cur rent hv rec hrec
    simp [calcLoop] at hrec
  | succ fuel ih =>
    intro prev cur rent hv rec hrec
    simp only [calcLoop] at hrec
    by_cases hbreak : we.key < cur.key
    · rw [if_pos hbreak] at hrec
      simp at hrec
    · rw [if_neg hbreak] at hrec
      have hnext := nextMonthSameDueDay_valid cur dueDay hv hd
      have hlt := nextMonthSameDueDay_key_lt cur dueDay hv hd
      by_cases hemit : ws.key ≤ cur.key ∧ cur.key ≤ we.key
      · rw [if_pos hemit] at hrec
        rcases List.mem_cons.mp hrec with rfl | hrec2
        · exact ⟨le_rfl, hv⟩
        · obtain ⟨hge, hvr⟩ := ih _ _ _ hnext rec hrec2
          exact ⟨by omega, hvr⟩
      · rw [if_neg hemit] at hrec
        obtain ⟨hge, hvr⟩ := ih _ _ _ hnext rec hrec
        exact ⟨by omega, hvr⟩

theorem calcLoop_pairwise (ws we lease : JDate) (dueDay : Int) (rate : ℚ)
    (dates : List JDate) (hd : 1 ≤ dueDay) :
    ∀ (fuel : Nat) (prev cur : JDate) (rent : ℚ), cur.Valid →
      ((calcLoop ws we lease dueDay rate dates fuel prev cur rent).map
        (fun r => r.rentDueDate)).Pairwise (fun a b => a.key < b.key) := by
  intro fuel
  induction fuel with
  | zero =>
    intro prev cur rent hv
    simp [calcLoop]
  | succ fuel ih =>
    intro prev cur rent hv
    simp only [calcLoop]
    by_cases hbreak : we.key < cur.key
    · rw [if_pos hbreak]
      simp
    · rw [if_neg hbreak]
      have hnext := nextMonthSameDueDay_valid cur dueDay hv hd
      have hlt := nextMonthSameDueDay_key_lt cur dueDay hv hd
      by_cases hemit : ws.key ≤ cur.key ∧ cur.key ≤ we.key
      · rw [if_pos hemit, List.map_cons, List.pairwise_cons]
        refine ⟨?_, ih _ _ _ hnext⟩
        intro b hb
        obtain ⟨rec, hrec, rfl⟩ := List.mem_map.mp hb
        obtain ⟨hge, _⟩ := calcLoop_mem_facts ws we lease dueDay rate dates hd
          fuel _ _ _ hnext rec hrec
        show cur.key < rec.rentDueDate.key
        omega
      · rw [if_neg hemit]
        exact ih _ _ _ hnext

theorem calcLoop_window (ws we lease : JDate) (dueDay : Int) (rate : ℚ)
    (dates : List JDate) :
    ∀ (fuel : Nat) (prev cur : JDate) (rent : ℚ),
      ∀ rec ∈ calcLoop ws we lease dueDay rate dates fuel prev cur rent,
        ws.key ≤ rec.rentDueDate.key ∧ rec.rentDueDate.key ≤ we.key := by
  intro fuel
  induction fuel with
  | zero =>
    intro prev cur rent rec hrec
    simp [calcLoop] at hrec
  | succ fuel ih =>
    intro prev cur rent rec hrec
    simp only [calcLoop] at hrec
    by_cases hbreak : we.key < cur.key
    · rw [if_pos hbreak] at hrec
      simp at hrec
    · rw [if_neg hbreak] at hrec
      by_cases hemit : ws.key ≤ cur.key ∧ cur.key ≤ we.key
      · rw [if_pos hemit] at hrec
        rcases List.mem_cons.mp hrec with rfl | hrec2
        · exact hemit
        · exact ih _ _ _ rec hrec2
      · rw [if_neg hemit] at hrec
        exact ih _ _ _ rec hrec

theorem calcLoop_length (ws we lease : JDate) (dueDay : Int) (rate : ℚ)
    (dates : List JDate) :
    ∀ (fuel : Nat) (prev cur : JDate) (rent : ℚ),
      (calcLoop ws we lease dueDay rate dates fuel prev cur rent).length ≤
        fuel := by
  intro fuel
  induction fuel with
  | zero =>
    intro prev cur rent
    simp [calcLoop]
  | succ fuel ih =>
    intro prev cur rent
    simp only [calcLoop]
    by_cases hbreak : we.key < cur.key
    · rw [if_pos hbreak]
      simp
    · rw [if_neg hbreak]
      by_cases hemit : ws.key ≤ cur.key ∧ cur.key ≤ we.key
      · rw [if_pos hemit, List.length_cons]
        have := ih cur (nextMonthSameDueDay cur dueDay)
          (applyAllApplicableRentChanges rent rate dates (some prev) cur lease)
        omega
      · rw [if_neg hemit]
        have := ih cur (nextMonthSameDueDay cur dueDay)
          (applyAllApplicableRentChanges rent rate dates (some prev) cur lease)
        omega

theorem calcLoop_amounts (ws we lease : JDate) (dueDay : Int)
    (rate base : ℚ) (dates : List JDate) (hd : 1 ≤ dueDay) :
    ∀ (fuel : Nat) (prev cur : JDate) (rent : ℚ), cur.Valid →
      prev.key ≤ cur.key →
      rent = base * (1 + rate) ^ dates.countP (qualUpTo rate prev lease) →
      ∀ rec ∈ calcLoop ws we lease dueDay rate dates fuel prev cur rent,
        rec.rentAmount = roundToTwo (base *
          (1 + rate) ^ dates.countP (qualUpTo rate rec.rentDueDate lease)) := by
  intro fuel
  induction fuel with
  | zero =>
    intro prev cur rent _ _ _ rec hrec
    simp [calcLoop] at hrec
  | succ fuel ih =>
    intro prev cur rent hv hpc hrent rec hrec
    simp only [calcLoop] at hrec
    by_cases hbreak : we.key < cur.key
    · rw [if_pos hbreak] at hrec
      simp at hrec
    · rw [if_neg hbreak] at hrec
      have hnewRent : applyAllApplicableRentChanges rent rate dates (some prev)
          cur lease =
          base * (1 + rate) ^ dates.countP (qualUpTo rate cur lease) := by
        rw [applyAll_eq_pow rate (some prev) cur lease dates rent, hrent,
          mul_assoc, ← pow_add, countP_interval dates rate prev cur lease hpc]
      have hnext := nextMonthSameDueDay_valid cur dueDay hv hd
      have hlt := nextMonthSameDueDay_key_lt cur dueDay hv hd
      by_cases hemit : ws.key ≤ cur.key ∧ cur.key ≤ we.key
      · rw [if_pos hemit] at hrec
        rcases List.mem_cons.mp hrec with rfl | hrec2
        · show roundToTwo (applyAllApplicableRentChanges rent rate dates
            (some prev) cur lease) = roundToTwo (base *
              (1 + rate) ^ dates.countP (qualUpTo rate cur lease))
          rw [hnewRent]
        · exact ih cur (nextMonthSameDueDay cur dueDay) _ hnext (by omega)
            hnewRent rec hrec2
      · rw [if_neg hemit] at hrec
        exact ih cur (nextMonthSameDueDay cur dueDay) _ hnext (by omega)
          hnewRent rec hrec

/-! ### Claim theorems -/

/-- Claim C1 (code bug shown at a failing input): in the `startDay < dueDay`
branch the second payment date is NOT clamped to the month's last day.  For a
lease starting 2023-02-10 with `dayOfMonthRentDue = 31`, the source builds
`new Date(2023, 1, 31)`, which JS normalizes to 2023-03-03 before
`clampToLastDayOfMonth` ever sees it, so the clamp is a no-op and the due
date for February (last day 28) never appears: the emitted schedule is
2023-02-10, 2023-03-03 instead of 2023-02-10, 2023-02-28 — contradicting the
source's own doc comments and the spec. -/
theorem C1_clamp_rollover_eval :
    clampToLastDayOfMonth (mkDate 2023 1 31) = ⟨2023, 2, 3⟩ ∧
    (firstPaymentInfo 100 ⟨2023, 1, 10⟩ 31).2 = ⟨2023, 2, 3⟩ ∧
    daysInMonth 2023 1 = 28 ∧
    (calculateMonthlyRent 100 ⟨2023, 1, 10⟩ ⟨2023, 0, 1⟩ ⟨2023, 2, 31⟩
        31 0 0).map (fun r => r.rentDueDate) =
      [⟨2023, 1, 10⟩, ⟨2023, 2, 3⟩] := by
  decide

/-- Claim C2: the rent-change applier is total and multiplies the running
rent by `(1 + rate)` exactly once for every schedule date in
`(previousDate, upcomingDate]` (with `none` meaning `-Infinity`) that
satisfies the occupancy condition, compounding the qualifying dates and
leaving the rent unchanged at all other dates. -/
theorem C2_rent_change_applier (r rate : ℚ) (dates : List JDate)
    (prev : Option JDate) (up lease : JDate) :
    applyAllApplicableRentChanges r rate dates prev up lease =
      r * (1 + rate) ^ dates.countP (qualB rate prev up lease) :=
  applyAll_eq_pow rate prev up lease dates r

/-- Claim C3: the first-payment amount in each of the three branches, with
the constant denominator 30, and the second payment date (next calendar
month's due day, clamped) in the `startDay = dueDay` and `startDay > dueDay`
branches. -/
theorem C3_first_payment (r : ℚ) (lease : JDate) (dueDay : Int)
    (h1 : 1 ≤ dueDay) (h31 : dueDay ≤ 31) (hv : lease.Valid) :
    (lease.day < dueDay →
      (firstPaymentInfo r lease dueDay).1 =
        r * ((dueDay - lease.day : Int) : ℚ) / 30) ∧
    (lease.day = dueDay →
      (firstPaymentInfo r lease dueDay).1 = r ∧
      (firstPaymentInfo r lease dueDay).2 = nextDueExplicit lease dueDay) ∧
    (dueDay < lease.day →
      (firstPaymentInfo r lease dueDay).1 =
        r * (1 - ((lease.day - dueDay : Int) : ℚ) / 30) ∧
      (firstPaymentInfo r lease dueDay).2 = nextDueExplicit lease dueDay) := by
  refine ⟨?_, ?_, ?_⟩
  · intro h
    simp only [firstPaymentInfo, if_pos h]
    ring
  · intro h
    have hn : ¬ lease.day < dueDay := by omega
    refine ⟨?_, ?_⟩
    · simp only [firstPaymentInfo, if_neg hn, if_pos h]
    · simp only [firstPaymentInfo, if_neg hn, if_pos h]
      exact nextMonthSameDueDay_eq lease dueDay hv h1
  · intro h
    have hn : ¬ lease.day < dueDay := by omega
    have hne : ¬ lease.day = dueDay := by omega
    refine ⟨?_, ?_⟩
    · simp only [firstPaymentInfo, if_neg hn, if_neg hne]
    · simp only [firstPaymentInfo, if_neg hn, if_neg hne]
      exact nextMonthSameDueDay_eq lease dueDay hv h1

theorem C3_first_payment_witness :
    (firstPaymentInfo 100 ⟨2023, 0, 20⟩ 10).1 =
      100 * (1 - ((20 - 10 : Int) : ℚ) / 30) ∧
    (firstPaymentInfo 100 ⟨2023, 0, 20⟩ 10).2 =
      nextDueExplicit ⟨2023, 0, 20⟩ 10 :=
  (C3_first_payment 100 ⟨2023, 0, 20⟩ 10 (by decide) (by decide)
    (by decide)).2.2 (by decide)

/-- Claim C4: the due dates of the returned records are strictly increasing
in the order the records appear. -/
theorem C4_strictly_increasing (base rate : ℚ) (lease ws we : JDate)
    (dueDay freq : Int) (h1 : 1 ≤ dueDay) (h31 : dueDay ≤ 31)
    (hv : lease.Valid) :
    ((calculateMonthlyRent base lease ws we dueDay freq rate).map
      (fun r => r.rentDueDate)).Pairwise (fun a b => a.key < b.key) := by
  simp only [calculateMonthlyRent]
  by_cases g1 : we.key < ws.key
  · rw [if_pos g1]
    simp
  · rw [if_neg g1]
    by_cases g2 : we.key < lease.key
    · rw [if_pos g2]
      simp
    · rw [if_neg g2]
      have hsnd := firstPaymentInfo_snd_facts
        (applyAllApplicableRentChanges base rate
          (generateRentChangeDates ws we freq) none lease lease)
        lease dueDay hv h1 h31
      by_cases g3 : ws.key ≤ lease.key ∧ lease.key ≤ we.key
      · rw [if_pos g3, List.singleton_append, List.map_cons,
          List.pairwise_cons]
        refine ⟨?_, calcLoop_pairwise ws we lease dueDay rate _ h1 500 _ _ _
          hsnd.1⟩
        intro b hb
        obtain ⟨rec, hrec, rfl⟩ := List.mem_map.mp hb
        obtain ⟨hge, _⟩ := calcLoop_mem_facts ws we lease dueDay rate _ h1
          500 _ _ _ hsnd.1 rec hrec
        show lease.key < rec.rentDueDate.key
        have := hsnd.2
        omega
      · rw [if_neg g3, List.nil_append]
        exact calcLoop_pairwise ws we lease dueDay rate _ h1 500 _ _ _ hsnd.1

theorem C4_strictly_increasing_witness :
    ((calculateMonthlyRent 100 ⟨2023, 0, 1⟩ ⟨2023, 0, 1⟩ ⟨2023, 2, 31⟩
      1 1 (1/10)).map (fun r => r.rentDueDate)).Pairwise
        (fun a b => a.key < b.key) :=
  C4_strictly_increasing 100 (1/10) ⟨2023, 0, 1⟩ ⟨2023, 0, 1⟩ ⟨2023, 2, 31⟩
    1 1 (by decide) (by decide) (by decide)

/-- Claim C5: every returned record's due date lies in the inclusive window
`[windowStartDate, windowEndDate]`. -/
theorem C5_window_containment (base rate : ℚ) (lease ws we : JDate)
    (dueDay freq : Int) :
    ∀ rec ∈ calculateMonthlyRent base lease ws we dueDay freq rate,
      ws.key ≤ rec.rentDueDate.key ∧ rec.rentDueDate.key ≤ we.key := by
  intro rec hrec
  simp only [calculateMonthlyRent] at hrec
  by_cases g1 : we.key < ws.key
  · rw [if_pos g1] at hrec
    simp at hrec
  · rw [if_neg g1] at hrec
    by_cases g2 : we.key < lease.key
    · rw [if_pos g2] at hrec
      simp at hrec
    · rw [if_neg g2] at hrec
      by_cases g3 : ws.key ≤ lease.key ∧ lease.key ≤ we.key
      · rw [if_pos g3, List.singleton_append] at hrec
        rcases List.mem_cons.mp hrec with rfl | h2
        · exact g3
        · exact calcLoop_window ws we lease dueDay rate _ 500 _ _ _ rec h2
      · rw [if_neg g3, List.nil_append] at hrec
        exact calcLoop_window ws we lease dueDay rate _ 500 _ _ _ rec hrec

unseal Rat.mul Rat.add Rat.sub Rat.inv in
theorem C5_window_containment_witness :
    (⟨false, 100, ⟨2023, 1, 10⟩⟩ : MonthlyRentRecord) ∈
      calculateMonthlyRent 100 ⟨2023, 0, 20⟩ ⟨2023, 0, 1⟩ ⟨2023, 2, 31⟩
        10 0 0 ∧
    ((JDate.mk 2023 0 1).key ≤
        (⟨false, 100, ⟨2023, 1, 10⟩⟩ : MonthlyRentRecord).rentDueDate.key ∧
      (⟨false, 100, ⟨2023, 1, 10⟩⟩ :
        MonthlyRentRecord).rentDueDate.key ≤ (JDate.mk 2023 2 31).key) :=
  ⟨by decide, C5_window_containment 100 0 ⟨2023, 0, 20⟩ ⟨2023, 0, 1⟩
    ⟨2023, 2, 31⟩ 10 0 ⟨false, 100, ⟨2023, 1, 10⟩⟩ (by decide)⟩

/-- Claim C6: an inverted window gives the empty result, and a lease starting
after the window end gives the empty result, for any other inputs. -/
theorem C6_degenerate_inputs (base rate : ℚ) (lease ws we : JDate)
    (dueDay freq : Int) :
    (we.key < ws.key →
      calculateMonthlyRent base lease ws we dueDay freq rate = []) ∧
    (we.key < lease.key →
      calculateMonthlyRent base lease ws we dueDay freq rate = []) := by
  constructor
  · intro h
    simp only [calculateMonthlyRent]
    rw [if_pos h]
  · intro h
    simp only [calculateMonthlyRent]
    by_cases g1 : we.key < ws.key
    · rw [if_pos g1]
    · rw [if_neg g1, if_pos h]

theorem C6_degenerate_inputs_witness :
    calculateMonthlyRent 500 ⟨2023, 6, 1⟩ ⟨2023, 0, 1⟩ ⟨2022, 5, 30⟩
      15 1 (1/10) = [] ∧
    calculateMonthlyRent 500 ⟨2023, 6, 1⟩ ⟨2023, 0, 1⟩ ⟨2023, 5, 30⟩
      15 1 (1/10) = [] :=
  ⟨(C6_degenerate_inputs 500 (1/10) ⟨2023, 6, 1⟩ ⟨2023, 0, 1⟩
      ⟨2022, 5, 30⟩ 15 1).1 (by decide),
   (C6_degenerate_inputs 500 (1/10) ⟨2023, 6, 1⟩ ⟨2023, 0, 1⟩
      ⟨2023, 5, 30⟩ 15 1).2 (by decide)⟩

/-- Claim C7: a non-positive frequency yields the empty schedule; a positive
frequency yields exactly the ascending 1st-of-month dates spaced
`frequencyMonths` months apart starting `frequencyMonths` months after the
window-start month, containing every such date `<= windowEndDate` and
nothing else. -/
theorem C7_schedule_exact (ws we : JDate) (f : Int) :
    (f ≤ 0 → generateRentChangeDates ws we f = []) ∧
    (0 < f →
      (generateRentChangeDates ws we f).Pairwise (fun a b => a.key < b.key) ∧
      ∀ d : JDate, d ∈ generateRentChangeDates ws we f ↔
        ∃ k : Nat, d = rcCandidate ws f k ∧ d.key ≤ we.key) := by
  constructor
  · intro h
    simp only [generateRentChangeDates]
    rw [if_pos h]
  · intro hf
    have hf1 : 1 ≤ f := hf
    simp only [generateRentChangeDates]
    rw [if_neg (by omega)]
    have hm0 : 0 ≤ (ws.month + f) % 12 := by omega
    have hm1 : (ws.month + f) % 12 < 12 := by omega
    have htn := Int.self_le_toNat (we.key -
      (JDate.mk (ws.year + (ws.month + f) / 12) ((ws.month + f) % 12) 1).key)
    have hinv : we.key -
        (JDate.mk (ws.year + (ws.month + f) / 12) ((ws.month + f) % 12) 1).key
        < 32 * ((we.key - (JDate.mk (ws.year + (ws.month + f) / 12)
          ((ws.month + f) % 12) 1).key).toNat + 1) := by
      omega
    refine ⟨genLoop_sorted we f hf1 _ _ _ hm0 hm1 hinv, ?_⟩
    intro d
    rw [genLoop_mem we f hf1 _ _ _ hm0 hm1 hinv d]
    constructor
    · rintro ⟨k, rfl, hk⟩
      refine ⟨k, ?_, hk⟩
      simp only [rcCandidate]
      congr 1
      rw [mul_add, mul_one]
      omega
    · rintro ⟨k, rfl, hk⟩
      refine ⟨k, ?_, hk⟩
      simp only [rcCandidate]
      congr 1
      rw [mul_add, mul_one]
      omega

theorem C7_schedule_exact_witness :
    generateRentChangeDates ⟨2023, 2, 15⟩ ⟨2023, 8, 30⟩ 0 = [] ∧
    ((JDate.mk 2023 4 1) ∈
        generateRentChangeDates ⟨2023, 2, 15⟩ ⟨2023, 8, 30⟩ 2 ↔
      ∃ k : Nat, JDate.mk 2023 4 1 = rcCandidate ⟨2023, 2, 15⟩ 2 k ∧
        (JDate.mk 2023 4 1).key ≤ (JDate.mk 2023 8 30).key) :=
  ⟨(C7_schedule_exact ⟨2023, 2, 15⟩ ⟨2023, 8, 30⟩ 0).1 (by decide),
   ((C7_schedule_exact ⟨2023, 2, 15⟩ ⟨2023, 8, 30⟩ 2).2 (by decide)).2
     (JDate.mk 2023 4 1)⟩

unseal Rat.mul Rat.add Rat.sub Rat.inv in
/-- Claim C8: the concrete vacancy-decrease scenario: base 300, lease
2023-06-15, window 2023-04-01..2023-08-31, due day 15, monthly changes at
rate -0.1, yields exactly three records of 243.00 on 06-15, 07-15, 08-15
(the two vacant-period decreases at 05-01 and 06-01 are baked into the first
payment and the rent is frozen afterwards). -/
theorem C8_vacancy_decrease_scenario :
    calculateMonthlyRent 300 ⟨2023, 5, 15⟩ ⟨2023, 3, 1⟩ ⟨2023, 7, 31⟩
      15 1 (-1/10) =
    [⟨false, 243, ⟨2023, 5, 15⟩⟩, ⟨false, 243, ⟨2023, 6, 15⟩⟩,
     ⟨false, 243, ⟨2023, 7, 15⟩⟩] := by
  decide

/-- Claim C9: the recurring loop is capped at 500 iterations, so the function
always returns a finite sequence of at most 501 records (1 possible
first-payment record plus at most 500 loop records), for every input. -/
theorem C9_termination_bound (base rate : ℚ) (lease ws we : JDate)
    (dueDay freq : Int) :
    (calculateMonthlyRent base lease ws we dueDay freq rate).length ≤ 501 := by
  simp only [calculateMonthlyRent]
  by_cases g1 : we.key < ws.key
  · rw [if_pos g1]
    simp
  · rw [if_neg g1]
    by_cases g2 : we.key < lease.key
    · rw [if_pos g2]
      simp
    · rw [if_neg g2]
      rw [List.length_append]
      have hloop := calcLoop_length ws we lease dueDay rate
        (generateRentChangeDates ws we freq) 500 lease
        ((firstPaymentInfo (applyAllApplicableRentChanges base rate
          (generateRentChangeDates ws we freq) none lease lease)
          lease dueDay).2)
        (applyAllApplicableRentChanges base rate
          (generateRentChangeDates ws we freq) none lease lease)
      by_cases g3 : ws.key ≤ lease.key ∧ lease.key ≤ we.key
      · rw [if_pos g3]
        simp only [List.length_singleton]
        omega
      · rw [if_neg g3]
        simp only [List.length_nil]
        omega

/-- Claim C10: every emitted record's amount is the two-decimal rounding of
the exact product `base * (1 + rate)^(number of qualifying schedule dates on
or before the record's due date) * (proration fraction if this is the
first-payment record, else 1)`; the running rent is kept exact, so rounding
happens only at emission and never compounds. -/
theorem C10_round_only_at_emission (base rate : ℚ) (lease ws we : JDate)
    (dueDay freq : Int) (h1 : 1 ≤ dueDay) (h31 : dueDay ≤ 31)
    (hv : lease.Valid) :
    ∀ rec ∈ calculateMonthlyRent base lease ws we dueDay freq rate,
      rec.rentAmount = roundToTwo (base *
        (1 + rate) ^ (generateRentChangeDates ws we freq).countP
          (qualUpTo rate rec.rentDueDate lease) *
        (if rec.rentDueDate = lease then firstFraction lease.day dueDay
         else 1)) := by
  intro rec hrec
  simp only [calculateMonthlyRent] at hrec
  by_cases g1 : we.key < ws.key
  · rw [if_pos g1] at hrec
    simp at hrec
  · rw [if_neg g1] at hrec
    by_cases g2 : we.key < lease.key
    · rw [if_pos g2] at hrec
      simp at hrec
    · rw [if_neg g2] at hrec
      have hocc : applyAllApplicableRentChanges base rate
          (generateRentChangeDates ws we freq) none lease lease =
          base * (1 + rate) ^ (generateRentChangeDates ws we freq).countP
            (qualUpTo rate lease lease) := by
        rw [applyAll_eq_pow rate none lease lease
          (generateRentChangeDates ws we freq) base, qualB_none]
      have hsnd := firstPaymentInfo_snd_facts
        (applyAllApplicableRentChanges base rate
          (generateRentChangeDates ws we freq) none lease lease)
        lease dueDay hv h1 h31
      by_cases g3 : ws.key ≤ lease.key ∧ lease.key ≤ we.key
      · rw [if_pos g3, List.singleton_append] at hrec
        rcases List.mem_cons.mp hrec with rfl | h2
        · simp only [eq_self_iff_true, if_true, firstPaymentInfo_fst, hocc]
        · have hamount := calcLoop_amounts ws we lease dueDay rate base
            (generateRentChangeDates ws we freq) h1 500 lease _ _
            hsnd.1 (le_of_lt hsnd.2) hocc rec h2
          have hne : ¬ rec.rentDueDate = lease := by
            obtain ⟨hge, _⟩ := calcLoop_mem_facts ws we lease dueDay rate
              (generateRentChangeDates ws we freq) h1 500 _ _ _ hsnd.1 rec h2
            intro heq
            rw [heq] at hge
            have := hsnd.2
            omega
          rw [if_neg hne, mul_one]
          exact hamount
      · rw [if_neg g3, List.nil_append] at hrec
        have hamount := calcLoop_amounts ws we lease dueDay rate base
          (generateRentChangeDates ws we freq) h1 500 lease _ _
          hsnd.1 (le_of_lt hsnd.2) hocc rec hrec
        have hne : ¬ rec.rentDueDate = lease := by
          obtain ⟨hge, _⟩ := calcLoop_mem_facts ws we lease dueDay rate
            (generateRentChangeDates ws we freq) h1 500 _ _ _ hsnd.1 rec hrec
          intro heq
          rw [heq] at hge
          have := hsnd.2
          omega
        rw [if_neg hne, mul_one]
        exact hamount

unseal Rat.mul Rat.add Rat.sub Rat.inv in
theorem C10_round_only_at_emission_witness :
    (JDate.mk 2023 0 20).Valid ∧
    (⟨false, 6667/100, ⟨2023, 0, 20⟩⟩ : MonthlyRentRecord).rentAmount =
      roundToTwo (100 * (1 + 1/10) ^
        (generateRentChangeDates ⟨2023, 0, 1⟩ ⟨2023, 2, 31⟩ 0).countP
          (qualUpTo (1/10)
            (⟨false, 6667/100, ⟨2023, 0, 20⟩⟩ :
              MonthlyRentRecord).rentDueDate ⟨2023, 0, 20⟩) *
        (if (⟨false, 6667/100, ⟨2023, 0, 20⟩⟩ :
              MonthlyRentRecord).rentDueDate = ⟨2023, 0, 20⟩ then
          firstFraction (JDate.mk 2023 0 20).day 10 else 1)) :=
  ⟨by decide, C10_round_only_at_emission 100 (1/10) ⟨2023, 0, 20⟩
    ⟨2023, 0, 1⟩ ⟨2023, 2, 31⟩ 10 0 (by decide) (by decide) (by decide)
    ⟨false, 6667/100, ⟨2023, 0, 20⟩⟩ (by decide)⟩

end StorageRent
